import Mathlib

/-!
Verification of the game registry of `ai-battle-arena`.

The embedded code:
* `src/games/types.ts` — the `GameStatus` union and the `GameEngine`
  interface (a capability bundle of a string `id`, a display `name`,
  and game operations over abstract state and move types).
* `src/games/registry.ts` — a module-level `Map<string, GameEngine>`
  with three exported functions: `registerGame` (Map.set under
  `engine.id`), `getGame` (Map.get), `getAllGames` (Array.from of
  Map.values).

A JavaScript `Map` is embedded as an association list with unique keys
kept in key-insertion order: `Map.set` on a present key updates the value
in place (the key keeps its original position), on an absent key appends
at the end; `Map.get` looks the key up; `Map.values` iterates values in
key order.  The mutable module-level map becomes explicit state passing:
each registry function takes and (for `registerGame`) returns the state.
-/

/-- `GameStatus` from `src/games/types.ts`: ongoing, win (with a winner
identifier), or draw. -/
inductive GameStatus where
  | ongoing : GameStatus
  | win (winner : String) : GameStatus
  | draw : GameStatus

/-- `GameEngine<TState, TMove>` from `src/games/types.ts`.  The React
board component `renderBoard` carries no registry-relevant data and is
embedded as `Unit`. -/
structure GameEngine (TState TMove : Type) where
  id : String
  name : String
  getInitialState : Unit → TState
  validateMove : TState → TMove → Bool
  applyMove : TState → TMove → TState
  getStatus : TState → GameStatus
  serializeState : TState → String
  renderBoard : Unit
  buildPrompt : TState → List TMove → String

/-- The state of the module-level `Map<string, GameEngine>`
(`gameRegistry` in `src/games/registry.ts`), as an insertion-ordered
association list with unique keys. -/
abbrev Registry (TState TMove : Type) : Type :=
  List (String × GameEngine TState TMove)

/-- JavaScript `Map.prototype.set`: if the key is present, update the
value in place (keeping the key position); otherwise append the new
entry at the end. -/
def mapSet {α : Type} : List (String × α) → String → α → List (String × α)
  | [], k, v => [(k, v)]
  | (k', v') :: rest, k, v =>
      if k' = k then (k, v) :: rest else (k', v') :: mapSet rest k v

/-- JavaScript `Map.prototype.get`: the value stored under the key, or
`none` when absent. -/
def mapGet {α : Type} : List (String × α) → String → Option α
  | [], _ => none
  | (k', v') :: rest, k => if k' = k then some v' else mapGet rest k

/-- The keys of the map, in insertion order. -/
def mapKeys {α : Type} (m : List (String × α)) : List String :=
  m.map Prod.fst

/-- `registerGame` from `src/games/registry.ts`:
`gameRegistry.set(engine.id, engine)`.  The TypeScript function returns
`void`; here the updated state is the whole result, so no signal of any
kind (overwrite or otherwise) is produced. -/
def registerGame {σ μ : Type} (st : Registry σ μ) (engine : GameEngine σ μ) :
    Registry σ μ :=
  mapSet st engine.id engine

/-- `getGame` from `src/games/registry.ts`: `gameRegistry.get(id)`,
`undefined` becoming `none`. -/
def getGame {σ μ : Type} (st : Registry σ μ) (id : String) :
    Option (GameEngine σ μ) :=
  mapGet st id

/-- `getAllGames` from `src/games/registry.ts`:
`Array.from(gameRegistry.values())`. -/
def getAllGames {σ μ : Type} (st : Registry σ μ) : List (GameEngine σ μ) :=
  st.map Prod.snd

/-- A sequence of `registerGame` calls, applied left to right. -/
def registerAll {σ μ : Type} (st : Registry σ μ)
    (engines : List (GameEngine σ μ)) : Registry σ μ :=
  engines.foldl registerGame st

/- Concrete engines used by the witnesses. -/

def chessA : GameEngine Unit Unit where
  id := "chess"
  name := "Chess A"
  getInitialState := fun _ => ()
  validateMove := fun _ _ => false
  applyMove := fun _ _ => ()
  getStatus := fun _ => GameStatus.ongoing
  serializeState := fun _ => ""
  renderBoard := ()
  buildPrompt := fun _ _ => ""

def chessB : GameEngine Unit Unit where
  id := "chess"
  name := "Chess B"
  getInitialState := fun _ => ()
  validateMove := fun _ _ => false
  applyMove := fun _ _ => ()
  getStatus := fun _ => GameStatus.ongoing
  serializeState := fun _ => ""
  renderBoard := ()
  buildPrompt := fun _ _ => ""

def checkersE : GameEngine Unit Unit where
  id := "checkers"
  name := "Checkers"
  getInitialState := fun _ => ()
  validateMove := fun _ _ => false
  applyMove := fun _ _ => ()
  getStatus := fun _ => GameStatus.ongoing
  serializeState := fun _ => ""
  renderBoard := ()
  buildPrompt := fun _ _ => ""

/-- The observable operations exported by `src/games/registry.ts`. -/
inductive RegOp (σ μ : Type) where
  | register (engine : GameEngine σ μ) : RegOp σ μ
  | get (id : String) : RegOp σ μ
  | getAll : RegOp σ μ

/-- The value one registry call returns to its caller: `void`, an
optional engine, or a list of engines. -/
inductive RegResult (σ μ : Type) where
  | unit : RegResult σ μ
  | engineOpt (r : Option (GameEngine σ μ)) : RegResult σ μ
  | engines (r : List (GameEngine σ μ)) : RegResult σ μ

/-- One registry call on a state, with failure made representable
(`Except`) so that the absence of any error branch in the source is a
provable statement: the bodies in `registry.ts` contain no `throw`, so
every branch below produces `Except.ok`. -/
def runOp {σ μ : Type} (st : Registry σ μ) :
    RegOp σ μ → Except String (Registry σ μ × RegResult σ μ)
  | RegOp.register e => Except.ok (registerGame st e, RegResult.unit)
  | RegOp.get id => Except.ok (st, RegResult.engineOpt (getGame st id))
  | RegOp.getAll => Except.ok (st, RegResult.engines (getAllGames st))

/-- The registry state after one call. -/
def opState {σ μ : Type} (st : Registry σ μ) (op : RegOp σ μ) :
    Registry σ μ :=
  match runOp st op with
  | Except.ok (st', _) => st'
  | Except.error _ => st

/-- The registry state after a sequence of calls. -/
def stateAfter {σ μ : Type} (st : Registry σ μ) :
    List (RegOp σ μ) → Registry σ μ
  | [] => st
  | op :: rest => stateAfter (opState st op) rest

/-- The engines passed to `registerGame` within a sequence of calls, in
order. -/
def registersOf {σ μ : Type} (ops : List (RegOp σ μ)) :
    List (GameEngine σ μ) :=
  ops.filterMap fun op =>
    match op with
    | RegOp.register e => some e
    | _ => none

/-- Identifiers in order of first occurrence: each identifier keeps the
place of its first occurrence and later duplicates are dropped. -/
def dedupFirst : List String → List String
  | [] => []
  | x :: xs => x :: (dedupFirst xs).filter fun y => decide (y ≠ x)

/-- Position of the first entry carrying the given key. -/
def keyIdx {α : Type} : List (String × α) → String → Nat
  | [], _ => 0
  | (k', _) :: rest, k => if k' = k then 0 else keyIdx rest k + 1

/- Key lemmas about the Map embedding. -/

theorem mapGet_mapSet_self {α : Type} (m : List (String × α)) (k : String)
    (v : α) : mapGet (mapSet m k v) k = some v := by
  induction m with
  | nil => simp [mapSet, mapGet]
  | cons p rest ih =>
      obtain ⟨k', v'⟩ := p
      by_cases h : k' = k
      · simp [mapSet, h, mapGet]
      · simp [mapSet, h, mapGet, ih]

theorem mapGet_mapSet_ne {α : Type} (m : List (String × α)) (k k' : String)
    (v : α) (h : k' ≠ k) : mapGet (mapSet m k v) k' = mapGet m k' := by
  induction m with
  | nil => simp [mapSet, mapGet, Ne.symm h]
  | cons p rest ih =>
      obtain ⟨k₀, v₀⟩ := p
      by_cases h₀ : k₀ = k
      · subst h₀
        simp [mapSet, mapGet, Ne.symm h]
      · by_cases h₁ : k₀ = k'
        · simp [mapSet, h₀, mapGet, h₁, h]
        · simp [mapSet, h₀, mapGet, h₁, ih]

theorem getGame_registerAll_not_mem {σ μ : Type} (st : Registry σ μ)
    (engines : List (GameEngine σ μ)) (id : String)
    (h : ∀ e ∈ engines, e.id ≠ id) :
    getGame (registerAll st engines) id = getGame st id := by
  induction engines generalizing st with
  | nil => rfl
  | cons e rest ih =>
      have he : e.id ≠ id := h e (by simp)
      have hr : ∀ x ∈ rest, x.id ≠ id := fun x hx => h x (by simp [hx])
      simp only [registerAll, List.foldl_cons]
      calc getGame (List.foldl registerGame (registerGame st e) rest) id
          = getGame (registerGame st e) id := ih (registerGame st e) hr
        _ = getGame st id := mapGet_mapSet_ne st e.id id e (Ne.symm he)

/-- C1: for every engine `e` and every registry state, `registerGame e`
followed by `getGame e.id` returns the very engine just registered (so
in particular an engine whose identifier equals `e.id`). -/
theorem register_then_getGame {σ μ : Type} (st : Registry σ μ)
    (e : GameEngine σ μ) : getGame (registerGame st e) e.id = some e :=
  mapGet_mapSet_self st e.id e

/-- C2: registering `A` and later `B` with the same identifier, with any
registrations in between, makes a subsequent `getGame` on that
identifier return `B`: the later registration overwrites the earlier
one.  (`registerGame` returns only the new state, so no signal is given
on overwrite.) -/
theorem overwrite_last_wins {σ μ : Type} (st : Registry σ μ)
    (A B : GameEngine σ μ) (mid : List (GameEngine σ μ)) (h : A.id = B.id) :
    getGame (registerGame (registerAll (registerGame st A) mid) B) A.id
      = some B := by
  rw [h]
  exact mapGet_mapSet_self _ B.id B

/-- Witness for C2 at concrete engines `chessA`, `chessB` with a
`checkers` registration in between. -/
theorem overwrite_last_wins_witness :
    getGame (registerGame (registerAll
      (registerGame ([] : Registry Unit Unit) chessA) [checkersE]) chessB)
      chessA.id = some chessB :=
  overwrite_last_wins [] chessA chessB [checkersE] rfl

/-- C3: `getGame` on an identifier for which no engine was ever
registered returns `none` (the "not found" value); being a total
function it raises nothing. -/
theorem getGame_never_registered {σ μ : Type}
    (engines : List (GameEngine σ μ)) (id : String)
    (h : ∀ e ∈ engines, e.id ≠ id) :
    getGame (registerAll ([] : Registry σ μ) engines) id = none := by
  rw [getGame_registerAll_not_mem [] engines id h]
  rfl

/-- Witness for C3: after registering only `chessA`, `getGame` on
`"checkers"` returns `none`. -/
theorem getGame_never_registered_witness :
    getGame (registerAll ([] : Registry Unit Unit) [chessA]) "checkers"
      = none :=
  getGame_never_registered [chessA] "checkers" (by decide)

/-- C9: registering an engine leaves the binding of every other
identifier unchanged: `getGame id'` returns the same result before and
after the registration whenever `id' ≠ e.id`. -/
theorem registerGame_frame {σ μ : Type} (st : Registry σ μ)
    (e : GameEngine σ μ) (id' : String) (h : id' ≠ e.id) :
    getGame (registerGame st e) id' = getGame st id' :=
  mapGet_mapSet_ne st e.id id' e h

/-- Witness for C9: registering `chessA` does not change the binding of
`"checkers"`. -/
theorem registerGame_frame_witness :
    getGame (registerGame
      (registerGame ([] : Registry Unit Unit) checkersE) chessA) "checkers"
      = getGame (registerGame ([] : Registry Unit Unit) checkersE)
          "checkers" :=
  registerGame_frame (registerGame [] checkersE) chessA "checkers" (by decide)

theorem getGame_registerGame {σ μ : Type} (st : Registry σ μ)
    (e : GameEngine σ μ) (id : String) :
    getGame (registerGame st e) id
      = if e.id = id then some e else getGame st id := by
  by_cases h : e.id = id
  · subst h
    simp [mapGet_mapSet_self st e.id e, getGame, registerGame]
  · simp only [if_neg h]
    exact mapGet_mapSet_ne st e.id id e (Ne.symm h)

theorem mapKeys_mapSet {α : Type} (m : List (String × α)) (k : String)
    (v : α) :
    mapKeys (mapSet m k v)
      = if k ∈ mapKeys m then mapKeys m else mapKeys m ++ [k] := by
  induction m with
  | nil => simp [mapSet, mapKeys]
  | cons p rest ih =>
      obtain ⟨k₀, v₀⟩ := p
      by_cases h : k₀ = k
      · subst h
        simp [mapSet, mapKeys]
      · have hcons : mapSet ((k₀, v₀) :: rest) k v
            = (k₀, v₀) :: mapSet rest k v := by
          simp [mapSet, h]
        have hks : ∀ q : List (String × α),
            mapKeys ((k₀, v₀) :: q) = k₀ :: mapKeys q := fun q => rfl
        rw [hcons, hks (mapSet rest k v), ih, hks rest]
        by_cases hm : k ∈ mapKeys rest
        · rw [if_pos hm, if_pos (List.mem_cons_of_mem _ hm)]
        · rw [if_neg hm,
            if_neg (by simp [hm, Ne.symm h] : k ∉ k₀ :: mapKeys rest)]
          rfl

theorem nodup_mapKeys_mapSet {α : Type} (m : List (String × α)) (k : String)
    (v : α) (h : (mapKeys m).Nodup) : (mapKeys (mapSet m k v)).Nodup := by
  rw [mapKeys_mapSet]
  by_cases hm : k ∈ mapKeys m
  · simpa [hm] using h
  · simp only [if_neg hm]
    rw [List.nodup_append]
    refine ⟨h, List.nodup_singleton k, ?_⟩
    intro a ha hak
    rw [List.mem_singleton] at hak
    exact hm (hak ▸ ha)

theorem nodup_mapKeys_registerAll {σ μ : Type} (st : Registry σ μ)
    (engines : List (GameEngine σ μ)) (h : (mapKeys st).Nodup) :
    (mapKeys (registerAll st engines)).Nodup := by
  induction engines generalizing st with
  | nil => exact h
  | cons e rest ih =>
      simp only [registerAll, List.foldl_cons]
      exact ih (registerGame st e) (nodup_mapKeys_mapSet st e.id e h)

theorem toFinset_mapKeys_mapSet {α : Type} (m : List (String × α))
    (k : String) (v : α) :
    (mapKeys (mapSet m k v)).toFinset = insert k (mapKeys m).toFinset := by
  rw [mapKeys_mapSet]
  by_cases hm : k ∈ mapKeys m
  · rw [if_pos hm]
    exact (Finset.insert_eq_self.mpr (List.mem_toFinset.mpr hm)).symm
  · rw [if_neg hm]
    simp [List.toFinset_append, Finset.union_comm, Finset.insert_eq]

theorem toFinset_mapKeys_registerAll {σ μ : Type} (st : Registry σ μ)
    (engines : List (GameEngine σ μ)) :
    (mapKeys (registerAll st engines)).toFinset
      = (mapKeys st).toFinset ∪ (engines.map fun e => e.id).toFinset := by
  induction engines generalizing st with
  | nil => simp [registerAll]
  | cons e rest ih =>
      simp only [registerAll, List.foldl_cons] at ih ⊢
      rw [ih (registerGame st e)]
      show (mapKeys (mapSet st e.id e)).toFinset ∪ _ = _
      rw [toFinset_mapKeys_mapSet]
      simp [Finset.insert_union, Finset.union_insert]

/-- C4: after any sequence of `registerGame` calls, `getAllGames`
returns a collection whose size equals the number of distinct
identifiers among the registered engines: overwrites of the same
identifier are not counted twice. -/
theorem getAllGames_length {σ μ : Type} (engines : List (GameEngine σ μ)) :
    (getAllGames (registerAll ([] : Registry σ μ) engines)).length
      = ((engines.map fun e => e.id).dedup).length := by
  have hnd : (mapKeys (registerAll ([] : Registry σ μ) engines)).Nodup :=
    nodup_mapKeys_registerAll [] engines (by simp [mapKeys])
  have hlen : (getAllGames (registerAll ([] : Registry σ μ) engines)).length
      = (mapKeys (registerAll ([] : Registry σ μ) engines)).length := by
    simp [getAllGames, mapKeys]
  rw [hlen, ← List.toFinset_card_of_nodup hnd,
    toFinset_mapKeys_registerAll [] engines, ← List.card_toFinset]
  simp [mapKeys]

theorem stateAfter_eq_registerAll {σ μ : Type} (st : Registry σ μ)
    (ops : List (RegOp σ μ)) :
    stateAfter st ops = registerAll st (registersOf ops) := by
  induction ops generalizing st with
  | nil => rfl
  | cons op rest ih =>
      cases op with
      | register e =>
          simp only [stateAfter, registersOf, List.filterMap_cons]
          exact ih (registerGame st e)
      | get id =>
          simp only [stateAfter, registersOf, List.filterMap_cons]
          exact ih st
      | getAll =>
          simp only [stateAfter, registersOf, List.filterMap_cons]
          exact ih st

theorem getGame_registerAll_last {σ μ : Type} (st : Registry σ μ)
    (engines : List (GameEngine σ μ)) (id : String) :
    getGame (registerAll st engines) id
      = ((engines.filter fun e => decide (e.id = id)).getLast?).or
          (getGame st id) := by
  induction engines using List.reverseRecOn with
  | nil => simp [registerAll]
  | append_singleton l e ih =>
      rw [show registerAll st (l ++ [e]) = registerGame (registerAll st l) e
          from by simp [registerAll, List.foldl_append]]
      rw [getGame_registerGame, List.filter_append]
      by_cases h : e.id = id
      · rw [if_pos h]
        have hf : List.filter (fun e => decide (e.id = id)) [e] = [e] := by
          simp [h]
        rw [hf, List.getLast?_concat]
        rfl
      · rw [if_neg h, ih]
        have hf : List.filter (fun e => decide (e.id = id)) [e] = [] := by
          simp [h]
        rw [hf, List.append_nil]

/-- C5: after every sequence of registry operations, the registry holds
at most one engine per identifier (its key list has no duplicates), and
the engine stored under an identifier is exactly the one passed to the
last `registerGame` call with that identifier (absent when there was
none). -/
theorem registry_invariant {σ μ : Type} (ops : List (RegOp σ μ))
    (id : String) :
    (mapKeys (stateAfter ([] : Registry σ μ) ops)).Nodup ∧
    getGame (stateAfter ([] : Registry σ μ) ops) id
      = ((registersOf ops).filter fun e => decide (e.id = id)).getLast? := by
  rw [stateAfter_eq_registerAll]
  refine ⟨nodup_mapKeys_registerAll [] _ (by simp [mapKeys]), ?_⟩
  rw [getGame_registerAll_last]
  have : getGame ([] : Registry σ μ) id = none := rfl
  rw [this, Option.or_none]

/-- C6: the registry component is total: every call, on every state and
every input, produces a normal `Except.ok` result — no error branch is
reachable (the embedded bodies, like the source, contain no failing
branch). -/
theorem registry_total {σ μ : Type} (st : Registry σ μ) (op : RegOp σ μ) :
    ∃ out, runOp st op = Except.ok out := by
  cases op with
  | register e => exact ⟨(registerGame st e, RegResult.unit), rfl⟩
  | get id => exact ⟨(st, RegResult.engineOpt (getGame st id)), rfl⟩
  | getAll => exact ⟨(st, RegResult.engines (getAllGames st)), rfl⟩

/-- C8: `getGame` is a pure lookup: it returns the stored engine option
and leaves the registry state exactly as it was, so the results of any
sequence of later calls are unaffected by it. -/
theorem getGame_pure {σ μ : Type} (st : Registry σ μ) (id : String)
    (ops : List (RegOp σ μ)) :
    runOp st (RegOp.get id)
      = Except.ok (st, RegResult.engineOpt (getGame st id)) ∧
    stateAfter (opState st (RegOp.get id)) ops = stateAfter st ops :=
  ⟨rfl, rfl⟩

theorem mem_mapSet {α : Type} (m : List (String × α)) (k : String) (v : α)
    (p : String × α) (hp : p ∈ mapSet m k v) : p = (k, v) ∨ p ∈ m := by
  induction m with
  | nil => simpa [mapSet] using hp
  | cons q rest ih =>
      obtain ⟨k₀, v₀⟩ := q
      by_cases h : k₀ = k
      · rw [show mapSet ((k₀, v₀) :: rest) k v = (k, v) :: rest from by
          simp [mapSet, h]] at hp
        rcases List.mem_cons.mp hp with he | hr
        · exact Or.inl he
        · exact Or.inr (List.mem_cons_of_mem _ hr)
      · rw [show mapSet ((k₀, v₀) :: rest) k v
            = (k₀, v₀) :: mapSet rest k v from by simp [mapSet, h]] at hp
        rcases List.mem_cons.mp hp with he | hr
        · exact Or.inr (he ▸ List.mem_cons_self _ _)
        · rcases ih hr with h1 | h2
          · exact Or.inl h1
          · exact Or.inr (List.mem_cons_of_mem _ h2)

theorem wellKeyed_registerAll {σ μ : Type} (st : Registry σ μ)
    (engines : List (GameEngine σ μ)) (h : ∀ p ∈ st, (p.2).id = p.1) :
    ∀ p ∈ registerAll st engines, (p.2).id = p.1 := by
  induction engines generalizing st with
  | nil => exact h
  | cons e rest ih =>
      simp only [registerAll, List.foldl_cons]
      refine ih (registerGame st e) ?_
      intro p hp
      rcases mem_mapSet st e.id e p hp with he | hm
      · rw [he]
      · exact h p hm

theorem mem_dedupFirst (x : String) (l : List String) :
    x ∈ dedupFirst l ↔ x ∈ l := by
  induction l with
  | nil => simp [dedupFirst]
  | cons y ys ih =>
      simp only [dedupFirst, List.mem_cons, List.mem_filter,
        decide_eq_true_eq, ih]
      by_cases h : x = y
      · simp [h]
      · simp [h]

theorem dedupFirst_concat (l : List String) (k : String) :
    dedupFirst (l ++ [k])
      = if k ∈ l then dedupFirst l else dedupFirst l ++ [k] := by
  induction l with
  | nil => simp [dedupFirst]
  | cons x xs ih =>
      by_cases hm : k ∈ xs
      · have hx : k ∈ x :: xs := List.mem_cons_of_mem _ hm
        rw [List.cons_append, if_pos hx]
        show x :: (dedupFirst (xs ++ [k])).filter (fun y => decide (y ≠ x))
          = x :: (dedupFirst xs).filter (fun y => decide (y ≠ x))
        rw [ih, if_pos hm]
      · by_cases hx : k = x
        · subst hx
          rw [List.cons_append, if_pos (List.mem_cons_self _ _)]
          show k :: (dedupFirst (xs ++ [k])).filter (fun y => decide (y ≠ k))
            = k :: (dedupFirst xs).filter (fun y => decide (y ≠ k))
          rw [ih, if_neg hm, List.filter_append]
          simp
        · have hnx : k ∉ x :: xs := by simp [hx, hm]
          rw [List.cons_append, if_neg hnx]
          show x :: (dedupFirst (xs ++ [k])).filter (fun y => decide (y ≠ x))
            = (x :: (dedupFirst xs).filter (fun y => decide (y ≠ x))) ++ [k]
          rw [ih, if_neg hm, List.filter_append]
          simp [hx]

theorem mapKeys_registerAll_dedupFirst {σ μ : Type}
    (engines : List (GameEngine σ μ)) :
    mapKeys (registerAll ([] : Registry σ μ) engines)
      = dedupFirst (engines.map fun e => e.id) := by
  induction engines using List.reverseRecOn with
  | nil => rfl
  | append_singleton l e ih =>
      rw [show registerAll ([] : Registry σ μ) (l ++ [e])
            = registerGame (registerAll [] l) e
          from by simp [registerAll, List.foldl_append]]
      rw [show registerGame (registerAll ([] : Registry σ μ) l) e
            = mapSet (registerAll [] l) e.id e from rfl]
      rw [mapKeys_mapSet, ih, List.map_append]
      simp only [List.map_cons, List.map_nil]
      rw [dedupFirst_concat]
      by_cases hm : e.id ∈ l.map fun e => e.id
      · rw [if_pos ((mem_dedupFirst _ _).mpr hm), if_pos hm]
      · rw [if_neg (fun hc => hm ((mem_dedupFirst _ _).mp hc)), if_neg hm]

theorem mem_of_mapGet_eq_some {α : Type} (m : List (String × α))
    (k : String) (v : α) (h : mapGet m k = some v) : (k, v) ∈ m := by
  induction m with
  | nil => simp [mapGet] at h
  | cons p rest ih =>
      obtain ⟨k₀, v₀⟩ := p
      by_cases hk : k₀ = k
      · subst hk
        rw [show mapGet ((k₀, v₀) :: rest) k₀ = some v₀ from by
          simp [mapGet]] at h
        obtain rfl : v₀ = v := Option.some.inj h
        exact List.mem_cons_self _ _
      · rw [show mapGet ((k₀, v₀) :: rest) k = mapGet rest k from by
          simp [mapGet, hk]] at h
        exact List.mem_cons_of_mem _ (ih h)

theorem mapGet_eq_some_of_mem {α : Type} (m : List (String × α))
    (k : String) (v : α) (hnd : (mapKeys m).Nodup) (hm : (k, v) ∈ m) :
    mapGet m k = some v := by
  induction m with
  | nil => simp at hm
  | cons p rest ih =>
      obtain ⟨k₀, v₀⟩ := p
      have hnd' : k₀ ∉ mapKeys rest ∧ (mapKeys rest).Nodup := by
        simpa [mapKeys] using hnd
      rcases List.mem_cons.mp hm with he | hrest
      · obtain ⟨rfl, rfl⟩ : k = k₀ ∧ v = v₀ := by
          simpa [Prod.ext_iff] using he
        simp [mapGet]
      · have hk : k₀ ≠ k := by
          intro hkk
          subst hkk
          exact hnd'.1 (by
            simpa [mapKeys] using List.mem_map_of_mem Prod.fst hrest)
        rw [show mapGet ((k₀, v₀) :: rest) k = mapGet rest k from by
          simp [mapGet, hk]]
        exact ih hnd'.2 hrest

theorem values_mapSet_mem {α : Type} (m : List (String × α)) (k : String)
    (v : α) (h : k ∈ mapKeys m) :
    (mapSet m k v).map Prod.snd = (m.map Prod.snd).set (keyIdx m k) v := by
  induction m with
  | nil => simp [mapKeys] at h
  | cons p rest ih =>
      obtain ⟨k₀, v₀⟩ := p
      by_cases hk : k₀ = k
      · simp [mapSet, hk, keyIdx]
      · have h' : k ∈ mapKeys rest := by
          rcases List.mem_cons.mp (show k ∈ k₀ :: mapKeys rest from h)
            with h1 | h2
          · exact absurd h1.symm hk
          · exact h2
        simp [mapSet, hk, keyIdx, ih h']

/-- C7: `getAllGames` returns exactly the currently registered engines
(an engine appears in the result precisely when it is the engine
`getGame` yields for its identifier), and their identifiers appear in
the order in which they were first inserted into the registry. -/
theorem getAllGames_insertion_order {σ μ : Type}
    (engines : List (GameEngine σ μ)) :
    ((getAllGames (registerAll ([] : Registry σ μ) engines)).map
        fun e => e.id)
      = dedupFirst (engines.map fun e => e.id) ∧
    ∀ e : GameEngine σ μ,
      e ∈ getAllGames (registerAll ([] : Registry σ μ) engines)
        ↔ getGame (registerAll ([] : Registry σ μ) engines) e.id
            = some e := by
  have hwk : ∀ p ∈ registerAll ([] : Registry σ μ) engines,
      (p.2).id = p.1 :=
    wellKeyed_registerAll [] engines (by simp)
  have hnd : (mapKeys (registerAll ([] : Registry σ μ) engines)).Nodup :=
    nodup_mapKeys_registerAll [] engines (by simp [mapKeys])
  constructor
  · rw [← mapKeys_registerAll_dedupFirst]
    simp only [getAllGames, mapKeys, List.map_map]
    exact List.map_congr_left fun p hp => hwk p hp
  · intro e
    constructor
    · intro he
      rcases List.mem_map.mp he with ⟨p, hp, hpe⟩
      have hpeq : p = (e.id, e) := by
        obtain ⟨k, v⟩ := p
        have h1 : v = e := hpe
        have h2 : v.id = k := hwk (k, v) hp
        subst h1
        rw [← h2]
      exact mapGet_eq_some_of_mem _ e.id e hnd (hpeq ▸ hp)
    · intro hg
      exact List.mem_map_of_mem Prod.snd (mem_of_mapGet_eq_some _ _ _ hg)

/-- C10: re-registering an existing identifier keeps that key's
original insertion position: the key sequence is unchanged, and in
`getAllGames` the replacement engine occupies the original position of
the identifier's first registration rather than a new position at the
end. -/
theorem overwrite_keeps_position {σ μ : Type} (st : Registry σ μ)
    (e : GameEngine σ μ) (h : e.id ∈ mapKeys st) :
    mapKeys (registerGame st e) = mapKeys st ∧
    getAllGames (registerGame st e)
      = (getAllGames st).set (keyIdx st e.id) e := by
  constructor
  · rw [show mapKeys (registerGame st e) = mapKeys (mapSet st e.id e)
        from rfl, mapKeys_mapSet, if_pos h]
  · exact values_mapSet_mem st e.id e h

/-- Witness for C10: in a registry holding `chess` then `checkers`,
re-registering `chess` (as `chessB`) keeps the key order and replaces
the engine at the original `chess` position. -/
theorem overwrite_keeps_position_witness :
    mapKeys (registerGame (registerAll ([] : Registry Unit Unit)
        [chessA, checkersE]) chessB)
      = mapKeys (registerAll ([] : Registry Unit Unit)
          [chessA, checkersE]) ∧
    getAllGames (registerGame (registerAll ([] : Registry Unit Unit)
        [chessA, checkersE]) chessB)
      = (getAllGames (registerAll ([] : Registry Unit Unit)
          [chessA, checkersE])).set
          (keyIdx (registerAll ([] : Registry Unit Unit)
            [chessA, checkersE]) chessB.id) chessB :=
  overwrite_keeps_position
    (registerAll ([] : Registry Unit Unit) [chessA, checkersE]) chessB
    (by decide)
